import Mathlib

/-!
Shallow embedding of the allocator / conservative garbage collector in
`src/main.c`, together with proofs settling the specification claims.

Modelling conventions:
* `struct block_meta` becomes the structure `Block`.  The `next` pointer
  chain is represented by the order of the Lean list `Heap.blocks`
  (the C list is singly linked in exactly that order); the header address
  of a block is carried explicitly in the field `addr`.
* `sizeof(struct block_meta)` is 32 on the x86-64 target the code is
  written for (8 + 8 + 3*4, padded to an 8-byte multiple); `META_SIZE = 32`.
* Machine words are `Nat`; the only place where `size_t` overflow matters
  is the alignment computation `(size + 7) & ~7`, which is modelled with
  an explicit `% 2^64`.
* The memory source `sbrk` is modelled by the pair `heapEnd`/`cap`:
  `sbrk(0)` is `heapEnd`, and `sbrk` returns `(void*)-1` exactly when the
  request would push `heapEnd` past `cap`.  In that case the
  `assert((void *)block == request)` on src/main.c line 142 fires — the
  old break never equals `(void*)-1` — so exhaustion is a fatal abort and
  the `return NULL` on lines 143-145 is dead code; `request_space`
  therefore returns `none` (abort), which `malloc` and `realloc`
  propagate.
* Payload bytes live in `mem : Nat → Nat` (byte address to byte value);
  headers are modelled structurally in `blocks`, not in `mem`.
* `assert` failures (fatal aborts) are modelled by `Option`: `none`
  means execution aborted.
-/

/-- `struct block_meta` (src/main.c lines 14-20), plus the block's header
address (implicit in C, explicit here).  `magic` is the integrity tag. -/
structure Block where
  addr : Nat
  size : Nat
  free : Bool
  marked : Bool
  magic : Nat
  deriving Repr, DecidableEq

/-- `sizeof(struct block_meta)` on the 64-bit target. -/
def META_SIZE : Nat := 32

/-- `MIN_SIZE` (src/main.c line 11): minimum block size for splitting. -/
def MIN_SIZE : Nat := 8

/-- The global heap state: the block list hanging off `global_base`,
the current program break `sbrk(0) = heapEnd`, the break limit `cap`
(beyond which `sbrk` fails), and payload memory. -/
structure Heap where
  blocks : List Block
  heapEnd : Nat
  cap : Nat
  mem : Nat → Nat

/-- `size = (size + 7) & ~7` (src/main.c line 166), on 64-bit `size_t`. -/
def align8 (n : Nat) : Nat := (n + 7) % 2 ^ 64 / 8 * 8

/-- `find_free_block` (src/main.c lines 129-136): index of the first block
that is free and at least `size` large.  The C function returns a pointer
(and the trailing `last` pointer, recovered here from the index). -/
def find_free_block (bs : List Block) (size : Nat) : Option Nat :=
  bs.findIdx? (fun b => b.free && decide (size ≤ b.size))

/-- `request_space` (src/main.c lines 138-158): extend the break by
`size + META_SIZE` and carve a fresh block at the old break.  When `sbrk`
cannot extend it returns `(void*)-1`, which differs from the previous
break, so the `assert((void *)block == request)` on line 142 aborts the
process before the `return NULL` on lines 143-145 can run: `none` here
models that fatal abort, and the NULL return is dead code. -/
def request_space (h : Heap) (size : Nat) : Option (Block × Heap) :=
  if h.heapEnd + size + META_SIZE ≤ h.cap then
    some ({ addr := h.heapEnd, size := size, free := false, marked := true, magic := 0x12345678 },
          { h with heapEnd := h.heapEnd + size + META_SIZE })
  else none

/-- `malloc` (src/main.c lines 160-208).  The outer `Option` is `none`
when the `assert` inside `request_space` aborts (the `if (!block) return
NULL` branches of `malloc` are then dead code for exhaustion); on a normal
return the inner `Option Nat` is the returned payload pointer
(`block + 1`, i.e. `addr + META_SIZE`, or NULL for a zero-size request)
paired with the new heap. -/
def malloc (h : Heap) (n : Nat) : Option (Option Nat × Heap) :=
  if n = 0 then some (none, h)
  else
    let size := align8 n
    match h.blocks with
    | [] =>
      match request_space h size with
      | none => none
      | some (b, h') =>
        some (some (b.addr + META_SIZE), { h' with blocks := [b] })
    | _ :: _ =>
      match find_free_block h.blocks size with
      | none =>
        match request_space h size with
        | none => none
        | some (b, h') =>
          some (some (b.addr + META_SIZE), { h' with blocks := h.blocks ++ [b] })
      | some i =>
        match h.blocks[i]? with
        | none => some (none, h)
        | some b =>
          if size + META_SIZE + MIN_SIZE ≤ b.size then
            let newb : Block :=
              { addr := b.addr + META_SIZE + size
                size := b.size - size - META_SIZE
                free := true
                marked := false
                magic := 0x22222222 }
            let b' : Block :=
              { addr := b.addr
                size := size
                free := false
                marked := true
                magic := 0x77777777 }
            some (some (b.addr + META_SIZE),
              { h with blocks :=
                  h.blocks.take i ++ b' :: newb :: h.blocks.drop (i + 1) })
          else
            let b' : Block :=
              { b with
                free := false
                marked := true
                magic := 0x77777777 }
            some (some (b.addr + META_SIZE),
              { h with blocks := h.blocks.take i ++ b' :: h.blocks.drop (i + 1) })

/-- `merge_free_blocks` (src/main.c lines 210-227): one left-to-right pass;
when two consecutive blocks are both free and address-adjacent the second
is absorbed into the first and the same position is re-examined. -/
def merge_free_blocks : List Block → List Block
  | [] => []
  | [b] => [b]
  | b :: c :: rest =>
    if b.free = true ∧ c.free = true ∧ b.addr + META_SIZE + b.size = c.addr then
      merge_free_blocks ({ b with size := b.size + META_SIZE + c.size } :: rest)
    else
      b :: merge_free_blocks (c :: rest)
termination_by l => l.length
decreasing_by
  all_goals simp_wf

/-- `free` (src/main.c lines 229-243).  `none` models an `assert` abort.
The C code locates the header by pointer arithmetic `ptr - 1`; here the
block whose payload starts at `ptr` is located in the list. -/
def free (h : Heap) (ptr : Nat) : Option Heap :=
  if ptr = 0 then some h
  else
    match h.blocks.findIdx? (fun b => decide (b.addr + META_SIZE = ptr)) with
    | none => none
    | some i =>
      match h.blocks[i]? with
      | none => none
      | some b =>
        if b.free = false ∧ (b.magic = 0x77777777 ∨ b.magic = 0x12345678) then
          some { h with blocks := merge_free_blocks (h.blocks.set i
                   { b with
                     free := true
                     marked := false
                     magic := 0x55555555 }) }
        else none

/-- `memcpy(dst, src, n)` on the byte memory (non-overlapping semantics,
which is what the C call relies on). -/
def memcpy (dst src n : Nat) (mem : Nat → Nat) : Nat → Nat :=
  fun a => if dst ≤ a ∧ a < dst + n then mem (src + (a - dst)) else mem a

/-- `realloc` (src/main.c lines 245-268).  Outer `none` models an abort
(reading a header that belongs to no block, the `assert` inside
`request_space` when the internal `malloc` hits exhaustion, or the
`assert` inside the `free` call); the inner `Option Nat` is the returned
pointer.  The `if (new_ptr)` test of the source is kept even though its
false branch is unreachable: `malloc` never returns NULL for a non-zero
request, it aborts instead. -/
def realloc (h : Heap) (ptr n : Nat) : Option (Option Nat × Heap) :=
  if ptr = 0 then malloc h n
  else if n = 0 then (free h ptr).map (fun h' => ((none : Option Nat), h'))
  else
    match h.blocks.findIdx? (fun b => decide (b.addr + META_SIZE = ptr)) with
    | none => none
    | some i =>
      match h.blocks[i]? with
      | none => none
      | some b =>
        if n ≤ b.size then some (some ptr, h)
        else
          match malloc h n with
          | none => none
          | some (none, h₁) => some (none, h₁)
          | some (some p, h₁) =>
            match h₁.blocks.findIdx? (fun c => decide (c.addr + META_SIZE = ptr)) with
            | none => none
            | some j =>
              match h₁.blocks[j]? with
              | none => none
              | some b₁ =>
                let h₂ : Heap := { h₁ with mem := memcpy p ptr b₁.size h₁.mem }
                (free h₂ ptr).map (fun h₃ => (some p, h₃))

/-- Read the 8-byte little-endian word starting at byte address `a`
(the `uintptr_t` reads performed by the scanners). -/
def readWord (mem : Nat → Nat) (a : Nat) : Nat :=
  ∑ j ∈ Finset.range 8, mem (a + j) * 256 ^ j

/-- Inner loop of `scan_region` (src/main.c lines 307-319): walk the block
list, mark the first block whose payload range contains `v`, and stop. -/
def markFirstHit (v : Nat) : List Block → List Block
  | [] => []
  | b :: rest =>
    if b.addr + META_SIZE ≤ v ∧ v < b.addr + META_SIZE + b.size then
      { b with marked := true } :: rest
    else b :: markFirstHit v rest

/-- `scan_region` (src/main.c lines 293-322) applied to the words `vals`
read from a root region.  A word is a candidate pointer when it lies in
`[heapStart, heapEnd)` where `heapStart = global_base + META_SIZE` and
`heapEnd = sbrk(0)`. -/
def scan_region (heapStart heapEnd : Nat) (vals : List Nat) (bs : List Block) :
    List Block :=
  vals.foldl
    (fun bs v =>
      if heapStart ≤ v ∧ v < heapEnd then markFirstHit v bs else bs) bs

/-- Condition of the innermost loop of `scan_heap` (src/main.c lines
352-364): `other` is unmarked and its payload range contains `v`. -/
def hits (o : Block) (v : Nat) : Prop :=
  o.marked = false ∧ o.addr + META_SIZE ≤ v ∧ v < o.addr + META_SIZE + o.size

instance (o : Block) (v : Nat) : Decidable (hits o v) := by
  unfold hits; infer_instance

/-- Effect of the innermost loop of `scan_heap` on one candidate block. -/
def markBlock (v : Nat) (o : Block) : Block :=
  if hits o v then { o with marked := true } else o

/-- Innermost loop of `scan_heap`: mark every unmarked block whose payload
contains `v`; the flag reports whether some block was newly marked
(`new_marks = 1`). -/
def markValue (v : Nat) (bs : List Block) : List Block × Bool :=
  (bs.map (markBlock v), bs.any (fun o => decide (hits o v)))

/-- Number of unmarked blocks; the termination measure of the `scan_heap`
fixpoint loop. -/
def unmarkedCount (bs : List Block) : Nat :=
  bs.countP (fun b => !b.marked)

theorem markBlock_unmarked (v : Nat) (o : Block)
    (h : (!(markBlock v o).marked) = true) : (!o.marked) = true := by
  unfold markBlock at h
  by_cases ho : hits o v
  · simp [if_pos ho] at h
  · simpa [if_neg ho] using h

theorem unmarkedCount_markValue_le (v : Nat) (bs : List Block) :
    unmarkedCount (markValue v bs).1 ≤ unmarkedCount bs := by
  unfold markValue unmarkedCount
  simp only [List.countP_map]
  exact List.countP_mono_left (fun b _ h => markBlock_unmarked v b h)

theorem markValue_snd_eq_false (v : Nat) (bs : List Block)
    (h : (markValue v bs).2 = false) : (markValue v bs).1 = bs := by
  unfold markValue at h ⊢
  simp only [List.any_eq_false, decide_eq_true_eq] at h
  simp only
  induction bs with
  | nil => rfl
  | cons b t ih =>
    simp only [List.map_cons]
    have hb : ¬ hits b v := h b (by simp)
    rw [markBlock, if_neg hb, ih (fun o ho => h o (by simp [ho]))]

theorem unmarkedCount_markValue_lt (v : Nat) (bs : List Block)
    (h : (markValue v bs).2 = true) :
    unmarkedCount (markValue v bs).1 < unmarkedCount bs := by
  induction bs with
  | nil => simp [markValue] at h
  | cons b t ih =>
    have hle := unmarkedCount_markValue_le v t
    simp only [markValue, unmarkedCount] at h ih hle ⊢
    simp only [List.any_cons, Bool.or_eq_true, decide_eq_true_eq] at h
    simp only [List.map_cons, List.countP_cons]
    by_cases hb : hits b v
    · have h1 : (!(markBlock v b).marked) = false := by
        simp [markBlock, if_pos hb]
      have h2 : (!b.marked) = true := by simp [hb.1]
      simp only [h1, h2]
      simp only [if_true, Bool.false_eq_true, if_false]
      omega
    · have h1 : markBlock v b = b := by simp [markBlock, if_neg hb]
      have h2 : (t.any fun o => decide (hits o v)) = true := by
        rcases h with h | h
        · exact absurd h hb
        · exact h
      have := ih h2
      simp only [h1]
      omega

/-- Middle loop of `scan_heap` (src/main.c lines 347-366): scan the
`count` payload words starting at byte address `base`, marking reachable
blocks; the accumulated flag is `new_marks`. -/
def scanBlockWords (mem : Nat → Nat) (base count : Nat)
    (s : List Block × Bool) : List Block × Bool :=
  (List.range count).foldl
    (fun s i =>
      let mv := markValue (readWord mem (base + 8 * i)) s.1
      (mv.1, s.2 || mv.2)) s

/-- Outer loop of one `do`-iteration of `scan_heap` (src/main.c lines
331-367): visit the blocks in list order; every block that is marked at
the moment it is visited has its payload scanned. -/
def scanHeapPass (mem : Nat → Nat) (bs : List Block) : List Block × Bool :=
  (List.range bs.length).foldl
    (fun s j =>
      match s.1[j]? with
      | none => s
      | some b =>
        if b.marked = true then
          scanBlockWords mem (b.addr + META_SIZE) (b.size / 8) s
        else s)
    (bs, false)

/-- A fold whose step never unmarks a block and sets the flag only when it
newly marks one strictly decreases `unmarkedCount` whenever its flag is
set.  Shared shape of the two loops of `scan_heap`. -/
theorem foldl_unmarked_inv {α : Type}
    (step : (List Block × Bool) → α → (List Block × Bool))
    (hstep : ∀ s x, unmarkedCount (step s x).1 ≤ unmarkedCount s.1 ∧
      ((step s x).2 = true →
        unmarkedCount (step s x).1 < unmarkedCount s.1 ∨ s.2 = true)) :
    ∀ (l : List α) (s : List Block × Bool),
      unmarkedCount (l.foldl step s).1 ≤ unmarkedCount s.1 ∧
      ((l.foldl step s).2 = true →
        unmarkedCount (l.foldl step s).1 < unmarkedCount s.1 ∨ s.2 = true) := by
  intro l
  induction l with
  | nil => intro s; exact ⟨le_refl _, fun h => Or.inr h⟩
  | cons x t ih =>
    intro s
    simp only [List.foldl_cons]
    rcases ih (step s x) with ⟨ihle, ihflag⟩
    rcases hstep s x with ⟨hle, hflag⟩
    refine ⟨le_trans ihle hle, fun hf => ?_⟩
    rcases ihflag hf with hlt | hsf
    · exact Or.inl (lt_of_lt_of_le hlt hle)
    · rcases hflag hsf with hlt | hss
      · exact Or.inl (lt_of_le_of_lt ihle hlt)
      · exact Or.inr hss

theorem scanBlockWords_inv (mem : Nat → Nat) (base count : Nat)
    (s : List Block × Bool) :
    unmarkedCount (scanBlockWords mem base count s).1 ≤ unmarkedCount s.1 ∧
    ((scanBlockWords mem base count s).2 = true →
      unmarkedCount (scanBlockWords mem base count s).1 < unmarkedCount s.1 ∨
        s.2 = true) := by
  unfold scanBlockWords
  refine foldl_unmarked_inv _ ?_ (List.range count) s
  intro s i
  simp only
  refine ⟨unmarkedCount_markValue_le _ _, fun hf => ?_⟩
  rcases Bool.or_eq_true_iff.mp hf with h | h
  · exact Or.inr h
  · exact Or.inl (unmarkedCount_markValue_lt _ _ h)

theorem scanHeapPass_decrease (mem : Nat → Nat) (bs : List Block)
    (h : (scanHeapPass mem bs).2 = true) :
    unmarkedCount (scanHeapPass mem bs).1 < unmarkedCount bs := by
  unfold scanHeapPass at h ⊢
  have := foldl_unmarked_inv
    (fun s j =>
      match s.1[j]? with
      | none => s
      | some b =>
        if b.marked = true then
          scanBlockWords mem (b.addr + META_SIZE) (b.size / 8) s
        else s)
    (fun s j => by
      match hj : s.1[j]? with
      | none => simp [hj]
      | some b =>
        simp only [hj]
        by_cases hb : b.marked = true
        · simp only [if_pos hb]
          exact scanBlockWords_inv mem (b.addr + META_SIZE) (b.size / 8) s
        · simp [if_neg hb])
    (List.range bs.length) (bs, false)
  rcases this.2 h with hlt | hfl
  · exact hlt
  · simp at hfl

/-- `scan_heap` (src/main.c lines 324-369): repeat the marking pass until
an iteration marks no new block. -/
def scan_heap (mem : Nat → Nat) (bs : List Block) : List Block :=
  if h : (scanHeapPass mem bs).2 = true then
    scan_heap mem (scanHeapPass mem bs).1
  else (scanHeapPass mem bs).1
termination_by unmarkedCount bs
decreasing_by exact scanHeapPass_decrease mem bs h

/-- Mark phase of `gc` (src/main.c lines 372-394): reset all marks, scan
the two root regions (data segment and stack, given by the word values
`rootsA`, `rootsB` read from them), then run the transitive-closure scan
over the heap. -/
def markPhase (h : Heap) (rootsA rootsB : List Nat) : List Block :=
  match h.blocks with
  | [] => []
  | b0 :: _ =>
    let bs0 := h.blocks.map (fun b => { b with marked := false })
    let heapStart := b0.addr + META_SIZE
    let bs1 := scan_region heapStart h.heapEnd rootsA bs0
    let bs2 := scan_region heapStart h.heapEnd rootsB bs1
    scan_heap h.mem bs2

/-- Sweep phase of `gc` (src/main.c lines 397-408), effect on one block. -/
def sweepBlock (b : Block) : Block :=
  if b.marked = false ∧ b.free = false then
    { b with free := true, marked := false, magic := 0x55555555 }
  else b

/-- `gc` (src/main.c lines 371-409): mark phase then sweep phase; returns
immediately when `global_base` is null. -/
def gc (h : Heap) (rootsA rootsB : List Nat) : Heap :=
  match h.blocks with
  | [] => h
  | _ :: _ => { h with blocks := (markPhase h rootsA rootsB).map sweepBlock }

/-- The core API calls, for reasoning about arbitrary call sequences. -/
inductive Op where
  | alloc (n : Nat)
  | release (p : Nat)
  | reallocate (p n : Nat)
  | collect (rootsA rootsB : List Nat)

/-- Execute one API call; `none` models a fatal abort. -/
def runOp (h : Heap) : Op → Option Heap
  | Op.alloc n => (malloc h n).map (fun r => r.2)
  | Op.release p => free h p
  | Op.reallocate p n => (realloc h p n).map (fun r => r.2)
  | Op.collect rootsA rootsB => some (gc h rootsA rootsB)

/-- Execute a sequence of API calls. -/
def runOps : Heap → List Op → Option Heap
  | h, [] => some h
  | h, op :: rest => (runOp h op).bind (fun h' => runOps h' rest)

/-- Two consecutive blocks are not simultaneously free and
address-adjacent (end of the first payload = start of the second
header). -/
def notAdjFree (b c : Block) : Prop :=
  ¬(b.free = true ∧ c.free = true ∧ b.addr + META_SIZE + b.size = c.addr)

/-- Every block size and header address is a multiple of the pointer
width. -/
def AlignedBlocks (bs : List Block) : Prop :=
  ∀ b ∈ bs, b.size % 8 = 0 ∧ b.addr % 8 = 0

/-- Alignment invariant of the whole heap state (the break stays aligned,
so freshly requested blocks are aligned too). -/
def AlignedHeap (h : Heap) : Prop :=
  AlignedBlocks h.blocks ∧ h.heapEnd % 8 = 0

/-- Blocks occupy disjoint address ranges in list order and lie below the
break: the layout the Arena actually maintains (it is contiguous, which
implies this). -/
def Separated (h : Heap) : Prop :=
  h.blocks.Pairwise (fun b c => b.addr + META_SIZE + b.size ≤ c.addr) ∧
    ∀ b ∈ h.blocks, b.addr + META_SIZE + b.size ≤ h.heapEnd

/-- Example heap: one free block of size 48 = 8 + META_SIZE + MIN_SIZE,
the exact boundary of the split test. -/
def hC1 : Heap :=
  { blocks := [{ addr := 64, size := 48, free := true, marked := false, magic := 0x55555555 }]
    heapEnd := 144
    cap := 144
    mem := fun _ => 0 }

/-- Example heap: one released block (tag `0x55555555`), for the
`realloc`-without-tag-check counterexample. -/
def hC5 : Heap :=
  { blocks := [{ addr := 64, size := 8, free := true, marked := false, magic := 0x55555555 }]
    heapEnd := 104
    cap := 104
    mem := fun _ => 0 }

/-- Example heap: free, allocated, free — releasing the middle block
creates a run of three contiguous free blocks. -/
def hW2 : Heap :=
  { blocks :=
      [{ addr := 64, size := 8, free := true, marked := false, magic := 0x55555555 },
       { addr := 104, size := 8, free := false, marked := true, magic := 0x77777777 },
       { addr := 144, size := 8, free := true, marked := false, magic := 0x55555555 }]
    heapEnd := 184
    cap := 184
    mem := fun _ => 0 }

/-- The heap `hW2` after `release` of the middle payload (one block). -/
def hW2' : Heap :=
  { blocks := [{ addr := 64, size := 88, free := true, marked := false, magic := 0x55555555 }]
    heapEnd := 184
    cap := 184
    mem := fun _ => 0 }

/-- Example heap: one properly allocated block (tag `0x77777777`). -/
def hW5 : Heap :=
  { blocks := [{ addr := 64, size := 8, free := false, marked := true, magic := 0x77777777 }]
    heapEnd := 104
    cap := 104
    mem := fun _ => 0 }

/-- Example heap: one allocated block whose bytes are its addresses mod
256, with room to grow. -/
def hW6 : Heap :=
  { blocks := [{ addr := 64, size := 8, free := false, marked := true, magic := 0x77777777 }]
    heapEnd := 104
    cap := 1000
    mem := fun a => a % 256 }

/-- C10: Calling `release` with a null pointer is a no-op: the call
returns immediately without aborting and the heap — every block's size,
link order, free flag, mark flag, tag, and all payload memory — is
unchanged (src/main.c lines 230-231). -/
theorem free_null_is_noop (h : Heap) : free h 0 = some h := by
  simp [free]

/-- C7: `reallocate(p, newsize)` with `p` non-null, `newsize` non-zero and
the block's recorded size already at least `newsize` returns `p` itself
and leaves the heap — hence the block's recorded size, free flag and all
payload contents — completely unchanged; no shrink-split happens
(src/main.c lines 255-259). -/
theorem realloc_no_shrink (h : Heap) (ptr n i : Nat) (b : Block)
    (hptr : ptr ≠ 0) (hn : n ≠ 0)
    (hfind : h.blocks.findIdx? (fun c => decide (c.addr + META_SIZE = ptr)) = some i)
    (hget : h.blocks[i]? = some b)
    (hsz : n ≤ b.size) :
    realloc h ptr n = some (some ptr, h) := by
  unfold realloc
  rw [if_neg hptr, if_neg hn, hfind]
  simp only [hget, if_pos hsz]

/-- Witness for C7 at a concrete heap: reallocating an 8-byte block to 8
bytes returns the same pointer and heap. -/
theorem realloc_no_shrink_witness : realloc hW5 96 8 = some (some 96, hW5) :=
  realloc_no_shrink hW5 96 8 0
    { addr := 64, size := 8, free := false, marked := true, magic := 0x77777777 }
    (by decide) (by decide) (by rfl) (by rfl) (by decide)

/-- Counterexample to C1 as stated: with one free block of size exactly
`align8 8 + META_SIZE + MIN_SIZE = 48`, the found block's size does NOT
exceed the threshold, yet `malloc` splits it (the `>=` on src/main.c line
185), leaving two blocks where the claim predicts one. -/
theorem malloc_splits_at_threshold_equality :
    ¬ (48 > align8 8 + META_SIZE + MIN_SIZE) ∧
    malloc hC1 8 = some (some 96,
      { hC1 with blocks :=
          [{ addr := 64, size := 8, free := false, marked := true, magic := 0x77777777 },
           { addr := 104, size := 8, free := true, marked := false, magic := 0x22222222 }] }) := by
  constructor
  · decide
  · rfl

/-- C1 (amended): on reuse the block is split — tail becoming a new free
block of size `original − requested − META_SIZE` — exactly when the found
block's size is AT LEAST the aligned requested size plus `META_SIZE` plus
`MIN_SIZE` (i.e. `>=`, not strict `>`); otherwise it is handed out whole
with its size unchanged (src/main.c lines 183-204). -/
theorem malloc_reuse_split_iff (h : Heap) (n i : Nat) (b : Block)
    (hn : n ≠ 0)
    (hfind : find_free_block h.blocks (align8 n) = some i)
    (hget : h.blocks[i]? = some b) :
    malloc h n = some (some (b.addr + META_SIZE),
      { h with blocks :=
          if align8 n + META_SIZE + MIN_SIZE ≤ b.size then
            h.blocks.take i ++
              { addr := b.addr, size := align8 n, free := false, marked := true,
                magic := 0x77777777 } ::
              { addr := b.addr + META_SIZE + align8 n,
                size := b.size - align8 n - META_SIZE, free := true,
                marked := false, magic := 0x22222222 } ::
              h.blocks.drop (i + 1)
          else
            h.blocks.take i ++
              { b with free := false, marked := true, magic := 0x77777777 } ::
              h.blocks.drop (i + 1) }) := by
  match hbs : h.blocks with
  | [] => rw [hbs] at hfind; simp [find_free_block] at hfind
  | b0 :: t =>
    rw [hbs] at hfind hget
    unfold malloc
    rw [if_neg hn]
    simp only [hbs, hfind, hget]
    by_cases hc : align8 n + META_SIZE + MIN_SIZE ≤ b.size
    · rw [if_pos hc, if_pos hc]
    · rw [if_neg hc, if_neg hc]

/-- Witness for C1 (amended) at the boundary heap `hC1`: the hypotheses
hold and `malloc` returns the reused block's payload, splitting it. -/
theorem malloc_reuse_split_iff_witness :
    malloc hC1 8 = some (some (64 + META_SIZE),
      { hC1 with blocks :=
          [{ addr := 64, size := 8, free := false, marked := true, magic := 0x77777777 },
           { addr := 104, size := 8, free := true, marked := false, magic := 0x22222222 }] }) := by
  have := malloc_reuse_split_iff hC1 8 0
    { addr := 64, size := 48, free := true, marked := false, magic := 0x55555555 }
    (by decide) (by rfl) (by rfl)
  simpa [hC1] using this

/-- Counterexample to C5 as stated: `reallocate` on a pointer whose tag is
the released value `0x55555555` (not a currently-allocated tag) does NOT
abort — with `newsize ≤ size` it simply returns the pointer (src/main.c
lines 255-259 perform no tag check). -/
theorem realloc_ignores_tag_counterexample :
    hC5.blocks.map Block.magic = [0x55555555] ∧
    realloc hC5 96 8 = some (some 96, hC5) := by
  exact ⟨rfl, rfl⟩

/-- C5 (amended): `release` on a non-null pointer whose header tag is not
a recognized currently-allocated value aborts fatally (the `assert` on
src/main.c line 236; `reallocate` itself performs no tag check and can
return normally on such a pointer); `release` on a not-yet-free block with
a recognized tag sets the free flag, clears the mark flag, retags the
block `0x55555555` (Released), and then runs the full coalescing pass
over the entire list (src/main.c lines 238-242). -/
theorem free_tag_check (h : Heap) (ptr i : Nat) (b : Block)
    (hptr : ptr ≠ 0)
    (hfind : h.blocks.findIdx? (fun c => decide (c.addr + META_SIZE = ptr)) = some i)
    (hget : h.blocks[i]? = some b) :
    (¬(b.magic = 0x77777777 ∨ b.magic = 0x12345678) → free h ptr = none) ∧
    (b.free = false → (b.magic = 0x77777777 ∨ b.magic = 0x12345678) →
      free h ptr = some { h with blocks := merge_free_blocks (h.blocks.set i
        { b with free := true, marked := false, magic := 0x55555555 }) }) := by
  unfold free
  rw [if_neg hptr, hfind]
  simp only [hget]
  constructor
  · intro hbad
    rw [if_neg (fun hc => hbad hc.2)]
  · intro hfree hmagic
    rw [if_pos ⟨hfree, hmagic⟩]

/-- Witness for C5 (amended): releasing a released-tagged block aborts;
releasing a properly tagged allocated block succeeds and coalesces. -/
theorem free_tag_check_witness :
    free hC5 96 = none ∧
    free hW5 96 = some { hW5 with blocks := merge_free_blocks (hW5.blocks.set 0
      { addr := 64, size := 8, free := true, marked := false, magic := 0x55555555 }) } :=
  ⟨(free_tag_check hC5 96 0
      { addr := 64, size := 8, free := true, marked := false, magic := 0x55555555 }
      (by decide) (by rfl) (by rfl)).1 (by decide),
   (free_tag_check hW5 96 0
      { addr := 64, size := 8, free := false, marked := true, magic := 0x77777777 }
      (by decide) (by rfl) (by rfl)).2 (by rfl) (by decide)⟩

/-- The coalescing pass keeps the head block's address and free flag (it
only ever grows the head's size). -/
theorem merge_free_blocks_head : ∀ (rest : List Block) (c : Block),
    ∃ c' tl, merge_free_blocks (c :: rest) = c' :: tl ∧
      c'.addr = c.addr ∧ c'.free = c.free := by
  intro rest
  induction rest with
  | nil =>
    intro c
    exact ⟨c, [], by simp [merge_free_blocks], rfl, rfl⟩
  | cons d rest' ih =>
    intro c
    simp only [merge_free_blocks]
    by_cases hc : c.free = true ∧ d.free = true ∧ c.addr + META_SIZE + c.size = d.addr
    · rw [if_pos hc]
      obtain ⟨c', tl, heq, ha, hf⟩ := ih { c with size := c.size + META_SIZE + d.size }
      exact ⟨c', tl, heq, ha, hf⟩
    · rw [if_neg hc]
      exact ⟨c, merge_free_blocks (d :: rest'), rfl, rfl, rfl⟩

/-- After the coalescing pass, no two consecutive blocks are both free and
address-adjacent. -/
theorem merge_free_blocks_chain : ∀ (bs : List Block),
    List.Chain' notAdjFree (merge_free_blocks bs) := by
  have main : ∀ (rest : List Block) (b : Block),
      List.Chain' notAdjFree (merge_free_blocks (b :: rest)) := by
    intro rest
    induction rest with
    | nil => intro b; simp [merge_free_blocks]
    | cons c rest' ih =>
      intro b
      simp only [merge_free_blocks]
      by_cases hc : b.free = true ∧ c.free = true ∧ b.addr + META_SIZE + b.size = c.addr
      · rw [if_pos hc]
        exact ih _
      · rw [if_neg hc]
        obtain ⟨c', tl, heq, ha, hf⟩ := merge_free_blocks_head rest' c
        rw [heq, List.chain'_cons]
        refine ⟨?_, by rw [← heq]; exact ih c⟩
        intro hcontra
        exact hc ⟨hcontra.1, by rw [← hf]; exact hcontra.2.1,
          by rw [← ha]; exact hcontra.2.2⟩
  intro bs
  match bs with
  | [] => simp [merge_free_blocks]
  | b :: rest => exact main rest b

/-- C2: after any successful `release` of a (non-null) validly allocated
pointer, no two consecutive blocks in the list are simultaneously free and
address-adjacent — the single coalescing pass invoked by `release`
(src/main.c line 242) reaches closure, so a run of three or more
contiguous free blocks is fully merged into one block. -/
theorem free_no_adjacent_free (h : Heap) (ptr : Nat) (h' : Heap)
    (hptr : ptr ≠ 0) (hf : free h ptr = some h') :
    List.Chain' notAdjFree h'.blocks := by
  unfold free at hf
  rw [if_neg hptr] at hf
  match hfi : h.blocks.findIdx? (fun b => decide (b.addr + META_SIZE = ptr)) with
  | none => rw [hfi] at hf; simp at hf
  | some i =>
    rw [hfi] at hf
    match hgi : h.blocks[i]? with
    | none =>
      simp only [hgi] at hf
      exact Option.noConfusion hf
    | some b =>
      simp only [hgi] at hf
      by_cases hok : b.free = false ∧ (b.magic = 0x77777777 ∨ b.magic = 0x12345678)
      · rw [if_pos hok] at hf
        cases hf
        exact merge_free_blocks_chain _
      · rw [if_neg hok] at hf
        exact absurd hf (by simp)

/-- Witness for C2: releasing the middle block of `hW2` creates three
contiguous free blocks which the single pass merges into one; the
resulting list satisfies the no-adjacent-free-blocks invariant. -/
theorem free_no_adjacent_free_witness : List.Chain' notAdjFree hW2'.blocks :=
  free_no_adjacent_free hW2 136 hW2' (by decide)
    (by simp [free, hW2, hW2', merge_free_blocks, META_SIZE])

/-- All header fields except the mark flag. -/
def blockShape (b : Block) : Nat × Nat × Bool × Nat :=
  (b.addr, b.size, b.free, b.magic)

theorem markBlock_shape (v : Nat) (o : Block) :
    blockShape (markBlock v o) = blockShape o := by
  unfold markBlock blockShape
  split <;> rfl

theorem markValue_shape (v : Nat) (bs : List Block) :
    (markValue v bs).1.map blockShape = bs.map blockShape := by
  unfold markValue
  simp only [List.map_map]
  exact List.map_congr_left (fun b _ => markBlock_shape v b)

/-- A fold whose step only changes mark flags preserves the other header
fields of every block. -/
theorem foldl_shape_preserved {α : Type}
    (step : (List Block × Bool) → α → (List Block × Bool))
    (hstep : ∀ s x, (step s x).1.map blockShape = s.1.map blockShape) :
    ∀ (l : List α) (s : List Block × Bool),
      ((l.foldl step s).1.map blockShape = s.1.map blockShape) := by
  intro l
  induction l with
  | nil => intro s; rfl
  | cons x t ih =>
    intro s
    simp only [List.foldl_cons]
    rw [ih (step s x), hstep s x]

theorem scanBlockWords_shape (mem : Nat → Nat) (base count : Nat)
    (s : List Block × Bool) :
    (scanBlockWords mem base count s).1.map blockShape = s.1.map blockShape := by
  unfold scanBlockWords
  refine foldl_shape_preserved _ ?_ (List.range count) s
  intro s i
  exact markValue_shape (readWord mem (base + 8 * i)) s.1

theorem scanHeapPass_shape (mem : Nat → Nat) (bs : List Block) :
    (scanHeapPass mem bs).1.map blockShape = bs.map blockShape := by
  unfold scanHeapPass
  refine foldl_shape_preserved _ ?_ (List.range bs.length) (bs, false)
  intro s j
  match hj : s.1[j]? with
  | none => simp [hj]
  | some b =>
    simp only [hj]
    by_cases hb : b.marked = true
    · rw [if_pos hb]
      exact scanBlockWords_shape mem (b.addr + META_SIZE) (b.size / 8) s
    · rw [if_neg hb]

theorem scan_heap_shape (mem : Nat → Nat) :
    ∀ bs, (scan_heap mem bs).map blockShape = bs.map blockShape := by
  suffices hgen : ∀ k bs, unmarkedCount bs ≤ k →
      (scan_heap mem bs).map blockShape = bs.map blockShape by
    exact fun bs => hgen (unmarkedCount bs) bs le_rfl
  intro k
  induction k with
  | zero =>
    intro bs hle
    rw [scan_heap]
    split
    case isTrue hfl =>
      exact absurd (scanHeapPass_decrease mem bs hfl) (by omega)
    case isFalse hfl => exact scanHeapPass_shape mem bs
  | succ k ih =>
    intro bs hle
    rw [scan_heap]
    split
    case isTrue hfl =>
      have hdec := scanHeapPass_decrease mem bs hfl
      rw [ih (scanHeapPass mem bs).1 (by omega)]
      exact scanHeapPass_shape mem bs
    case isFalse hfl => exact scanHeapPass_shape mem bs

theorem markFirstHit_shape (v : Nat) :
    ∀ bs, (markFirstHit v bs).map blockShape = bs.map blockShape := by
  intro bs
  induction bs with
  | nil => rfl
  | cons b t ih =>
    unfold markFirstHit
    split
    · rfl
    · simp only [List.map_cons]
      rw [ih]

theorem scan_region_shape (hs he : Nat) (vals : List Nat) :
    ∀ bs, (scan_region hs he vals bs).map blockShape = bs.map blockShape := by
  induction vals with
  | nil => intro bs; rfl
  | cons v t ih =>
    intro bs
    unfold scan_region at ih ⊢
    simp only [List.foldl_cons]
    rw [ih]
    split
    · exact markFirstHit_shape v bs
    · rfl

theorem markPhase_shape (h : Heap) (ra rb : List Nat) :
    (markPhase h ra rb).map blockShape = h.blocks.map blockShape := by
  match hbs : h.blocks with
  | [] => simp [markPhase, hbs]
  | b0 :: t =>
    unfold markPhase
    rw [hbs]
    simp only
    rw [scan_heap_shape, scan_region_shape, scan_region_shape, List.map_map]
    exact List.map_congr_left (fun b _ => rfl)

theorem markPhase_length (h : Heap) (ra rb : List Nat) :
    (markPhase h ra rb).length = h.blocks.length := by
  have := congrArg List.length (markPhase_shape h ra rb)
  simpa using this

theorem markPhase_free (h : Heap) (ra rb : List Nat) :
    (markPhase h ra rb).map (fun b => b.free) = h.blocks.map (fun b => b.free) := by
  have := congrArg (List.map (fun x : Nat × Nat × Bool × Nat => x.2.2.1))
    (markPhase_shape h ra rb)
  simpa [List.map_map, Function.comp, blockShape] using this

theorem gc_empty (h : Heap) (ra rb : List Nat) (hbs : h.blocks = []) :
    gc h ra rb = h := by
  unfold gc; rw [hbs]

theorem gc_blocks_sweep (h : Heap) (ra rb : List Nat) (hne : h.blocks ≠ []) :
    (gc h ra rb).blocks = (markPhase h ra rb).map sweepBlock := by
  unfold gc
  match hbs : h.blocks with
  | [] => exact absurd hbs hne
  | b0 :: t => rfl

theorem gc_mem (h : Heap) (ra rb : List Nat) : (gc h ra rb).mem = h.mem := by
  unfold gc
  match hbs : h.blocks with
  | [] => rfl
  | b0 :: t => rfl

theorem gc_heapEnd (h : Heap) (ra rb : List Nat) :
    (gc h ra rb).heapEnd = h.heapEnd := by
  unfold gc
  match hbs : h.blocks with
  | [] => rfl
  | b0 :: t => rfl

theorem gc_cap (h : Heap) (ra rb : List Nat) : (gc h ra rb).cap = h.cap := by
  unfold gc
  match hbs : h.blocks with
  | [] => rfl
  | b0 :: t => rfl

theorem sweepBlock_span (b : Block) :
    ((sweepBlock b).addr, (sweepBlock b).size) = (b.addr, b.size) := by
  unfold sweepBlock
  split <;> rfl

theorem gc_span (h : Heap) (ra rb : List Nat) :
    (gc h ra rb).blocks.map (fun b => (b.addr, b.size)) =
      h.blocks.map (fun b => (b.addr, b.size)) := by
  have hspan : ∀ (bs cs : List Block), bs.map blockShape = cs.map blockShape →
      bs.map (fun b => (b.addr, b.size)) = cs.map (fun b => (b.addr, b.size)) := by
    intro bs cs hsh
    have := congrArg (List.map (fun x : Nat × Nat × Bool × Nat => (x.1, x.2.1))) hsh
    simpa [List.map_map, Function.comp, blockShape] using this
  match hbs : h.blocks with
  | [] => rw [gc_empty h ra rb hbs, hbs]
  | b0 :: t =>
    rw [gc_blocks_sweep h ra rb (by rw [hbs]; simp), ← hbs]
    have h1 : ((markPhase h ra rb).map sweepBlock).map (fun b => (b.addr, b.size)) =
        (markPhase h ra rb).map (fun b => (b.addr, b.size)) := by
      simp only [List.map_map]
      exact List.map_congr_left (fun b _ => sweepBlock_span b)
    exact h1.trans (hspan _ _ (markPhase_shape h ra rb))

/-- C3: when `collect` returns, every block that ended the mark phase
unmarked and not already free has its free flag set, its mark flag clear,
and its tag set to the collector-released value `0x55555555`; every block
that was marked or already free keeps its free flag, mark flag and tag
unchanged by the sweep (src/main.c lines 397-408). -/
theorem gc_sweep_spec (h : Heap) (ra rb : List Nat) (i : Nat) :
    ((gc h ra rb).blocks[i]?).map (fun g => (g.free, g.marked, g.magic)) =
      ((markPhase h ra rb)[i]?).map (fun m =>
        if m.marked = false ∧ m.free = false then (true, false, (0x55555555 : Nat))
        else (m.free, m.marked, m.magic)) := by
  match hbs : h.blocks with
  | [] =>
    have hm : markPhase h ra rb = [] := by unfold markPhase; rw [hbs]
    rw [gc_empty h ra rb hbs, hm, hbs]
    rfl
  | b0 :: t =>
    rw [gc_blocks_sweep h ra rb (by rw [hbs]; simp)]
    simp only [List.getElem?_map, Option.map_map]
    cases hm : (markPhase h ra rb)[i]? with
    | none => rfl
    | some m =>
      simp only [Option.map_some', Function.comp_apply, sweepBlock]
      split <;> rfl

/-- C4: `collect` mutates only mark flags, free flags and tags: payload
memory, the break, the number and order of blocks, and every block's
address and size are unchanged; in particular the coalescing pass is never
invoked, so address-adjacent free blocks produced by the sweep remain
separate blocks when `collect` returns (src/main.c lines 371-409). -/
theorem gc_frame (h : Heap) (ra rb : List Nat) :
    (gc h ra rb).mem = h.mem ∧
    (gc h ra rb).heapEnd = h.heapEnd ∧
    (gc h ra rb).blocks.map (fun b => (b.addr, b.size)) =
      h.blocks.map (fun b => (b.addr, b.size)) :=
  ⟨gc_mem h ra rb, gc_heapEnd h ra rb, gc_span h ra rb⟩

/-- The header fields the mark phase reads and writes. -/
def markShape (b : Block) : Nat × Nat × Bool :=
  (b.addr, b.size, b.marked)

theorem markShape_eq_iff {b c : Block} :
    markShape b = markShape c ↔
      (b.addr = c.addr ∧ b.size = c.size ∧ b.marked = c.marked) := by
  unfold markShape
  simp [Prod.ext_iff]

theorem hits_congr {b c : Block} (v : Nat) (h : markShape b = markShape c) :
    hits b v ↔ hits c v := by
  rcases markShape_eq_iff.mp h with ⟨ha, hs, hm⟩
  unfold hits
  rw [ha, hs, hm]

theorem markBlock_congr {b c : Block} (v : Nat) (h : markShape b = markShape c) :
    markShape (markBlock v b) = markShape (markBlock v c) := by
  rcases markShape_eq_iff.mp h with ⟨ha, hs, _⟩
  unfold markBlock
  by_cases hb : hits b v
  · rw [if_pos hb, if_pos ((hits_congr v h).mp hb)]
    unfold markShape
    simp [ha, hs]
  · rw [if_neg hb, if_neg (fun hc => hb ((hits_congr v h).mpr hc))]
    exact h

theorem markValue_congr (v : Nat) :
    ∀ (bs cs : List Block), bs.map markShape = cs.map markShape →
      (markValue v bs).1.map markShape = (markValue v cs).1.map markShape ∧
      (markValue v bs).2 = (markValue v cs).2 := by
  intro bs
  induction bs with
  | nil =>
    intro cs hmap
    cases cs with
    | nil => exact ⟨rfl, rfl⟩
    | cons c u => simp at hmap
  | cons b t ih =>
    intro cs hmap
    cases cs with
    | nil => simp at hmap
    | cons c u =>
      simp only [List.map_cons, List.cons.injEq] at hmap
      obtain ⟨h1, h2⟩ := hmap
      obtain ⟨iht, ihf⟩ := ih u h2
      constructor
      · simp only [markValue, List.map_cons] at iht ⊢
        rw [markBlock_congr v h1, iht]
      · simp only [markValue, List.any_cons] at ihf ⊢
        rw [ihf, decide_eq_decide.mpr (hits_congr v h1)]

theorem unmarkedCount_congr :
    ∀ (bs cs : List Block), bs.map markShape = cs.map markShape →
      unmarkedCount bs = unmarkedCount cs := by
  intro bs
  induction bs with
  | nil =>
    intro cs hmap
    cases cs with
    | nil => rfl
    | cons c u => simp at hmap
  | cons b t ih =>
    intro cs hmap
    cases cs with
    | nil => simp at hmap
    | cons c u =>
      simp only [List.map_cons, List.cons.injEq] at hmap
      obtain ⟨h1, h2⟩ := hmap
      rcases markShape_eq_iff.mp h1 with ⟨_, _, hm⟩
      unfold unmarkedCount at ih ⊢
      simp only [List.countP_cons, hm, ih u h2]

/-- Parallel version of the fold invariant: a step that only depends on
and produces the mark-relevant data yields equal results from
mark-equivalent states. -/
theorem foldl_congr_pair {α : Type}
    (step : (List Block × Bool) → α → (List Block × Bool))
    (hstep : ∀ s t x, s.1.map markShape = t.1.map markShape → s.2 = t.2 →
      (step s x).1.map markShape = (step t x).1.map markShape ∧
      (step s x).2 = (step t x).2) :
    ∀ (l : List α) (s t : List Block × Bool),
      s.1.map markShape = t.1.map markShape → s.2 = t.2 →
      (l.foldl step s).1.map markShape = (l.foldl step t).1.map markShape ∧
      (l.foldl step s).2 = (l.foldl step t).2 := by
  intro l
  induction l with
  | nil => intro s t h1 h2; exact ⟨h1, h2⟩
  | cons x r ih =>
    intro s t h1 h2
    simp only [List.foldl_cons]
    obtain ⟨g1, g2⟩ := hstep s t x h1 h2
    exact ih (step s x) (step t x) g1 g2

theorem scanBlockWords_congr (mem : Nat → Nat) (base count : Nat)
    (s t : List Block × Bool)
    (h1 : s.1.map markShape = t.1.map markShape) (h2 : s.2 = t.2) :
    (scanBlockWords mem base count s).1.map markShape =
      (scanBlockWords mem base count t).1.map markShape ∧
    (scanBlockWords mem base count s).2 = (scanBlockWords mem base count t).2 := by
  unfold scanBlockWords
  refine foldl_congr_pair _ ?_ (List.range count) s t h1 h2
  intro s t x hs ht
  obtain ⟨m1, m2⟩ := markValue_congr (readWord mem (base + 8 * x)) s.1 t.1 hs
  exact ⟨m1, by simp only; rw [ht, m2]⟩

theorem scanHeapPass_congr (mem : Nat → Nat) (bs cs : List Block)
    (hmap : bs.map markShape = cs.map markShape) :
    (scanHeapPass mem bs).1.map markShape = (scanHeapPass mem cs).1.map markShape ∧
    (scanHeapPass mem bs).2 = (scanHeapPass mem cs).2 := by
  have hlen : bs.length = cs.length := by
    have := congrArg List.length hmap
    simpa using this
  unfold scanHeapPass
  rw [hlen]
  refine foldl_congr_pair _ ?_ (List.range cs.length) (bs, false) (cs, false) hmap rfl
  intro s t j hs ht
  have hj : (s.1[j]?).map markShape = (t.1[j]?).map markShape := by
    rw [← List.getElem?_map, ← List.getElem?_map, hs]
  match hsj : s.1[j]?, htj : t.1[j]? with
  | none, none => exact ⟨hs, ht⟩
  | none, some c => rw [hsj, htj] at hj; simp at hj
  | some b, none => rw [hsj, htj] at hj; simp at hj
  | some b, some c =>
    rw [hsj, htj] at hj
    simp only [Option.map_some'] at hj
    rcases markShape_eq_iff.mp (Option.some.inj hj) with ⟨ha, hsz, hm⟩
    simp only
    by_cases hbm : b.marked = true
    · rw [if_pos hbm, if_pos (by rw [← hm]; exact hbm), ← ha, ← hsz]
      exact scanBlockWords_congr mem (b.addr + META_SIZE) (b.size / 8) s t hs ht
    · rw [if_neg hbm, if_neg (by rw [← hm]; exact hbm)]
      exact ⟨hs, ht⟩

theorem scan_heap_congr (mem : Nat → Nat) :
    ∀ bs cs, bs.map markShape = cs.map markShape →
      (scan_heap mem bs).map markShape = (scan_heap mem cs).map markShape := by
  suffices hgen : ∀ k bs cs, unmarkedCount bs ≤ k →
      bs.map markShape = cs.map markShape →
      (scan_heap mem bs).map markShape = (scan_heap mem cs).map markShape by
    exact fun bs cs h => hgen (unmarkedCount bs) bs cs le_rfl h
  intro k
  induction k with
  | zero =>
    intro bs cs hle hmap
    conv_lhs => rw [scan_heap]
    conv_rhs => rw [scan_heap]
    obtain ⟨p1, p2⟩ := scanHeapPass_congr mem bs cs hmap
    by_cases hfl : (scanHeapPass mem bs).2 = true
    · exact absurd (scanHeapPass_decrease mem bs hfl) (by omega)
    · rw [dif_neg hfl, dif_neg (by rw [← p2]; exact hfl)]
      exact p1
  | succ k ih =>
    intro bs cs hle hmap
    conv_lhs => rw [scan_heap]
    conv_rhs => rw [scan_heap]
    obtain ⟨p1, p2⟩ := scanHeapPass_congr mem bs cs hmap
    by_cases hfl : (scanHeapPass mem bs).2 = true
    · rw [dif_pos hfl, dif_pos (by rw [← p2]; exact hfl)]
      refine ih _ _ ?_ p1
      have := scanHeapPass_decrease mem bs hfl
      omega
    · rw [dif_neg hfl, dif_neg (by rw [← p2]; exact hfl)]
      exact p1

theorem markFirstHit_congr (v : Nat) :
    ∀ bs cs, bs.map markShape = cs.map markShape →
      (markFirstHit v bs).map markShape = (markFirstHit v cs).map markShape := by
  intro bs
  induction bs with
  | nil =>
    intro cs h
    cases cs with
    | nil => rfl
    | cons c u => simp at h
  | cons b t ih =>
    intro cs h
    cases cs with
    | nil => simp at h
    | cons c u =>
      simp only [List.map_cons, List.cons.injEq] at h
      obtain ⟨h1, h2⟩ := h
      rcases markShape_eq_iff.mp h1 with ⟨ha, hs, _⟩
      unfold markFirstHit
      by_cases hb : b.addr + META_SIZE ≤ v ∧ v < b.addr + META_SIZE + b.size
      · rw [if_pos hb, if_pos (by rw [← ha, ← hs]; exact hb)]
        simp only [List.map_cons, h2]
        refine congrArg (fun x => x :: _) ?_
        unfold markShape
        simp [ha, hs]
      · rw [if_neg hb, if_neg (by rw [← ha, ← hs]; exact hb)]
        simp only [List.map_cons]
        rw [h1, ih u h2]

theorem scan_region_congr (hs he : Nat) (vals : List Nat) :
    ∀ bs cs, bs.map markShape = cs.map markShape →
      (scan_region hs he vals bs).map markShape =
        (scan_region hs he vals cs).map markShape := by
  induction vals with
  | nil => intro bs cs h; exact h
  | cons v t ih =>
    intro bs cs h
    unfold scan_region at ih ⊢
    simp only [List.foldl_cons]
    apply ih
    by_cases hc : hs ≤ v ∧ v < he
    · rw [if_pos hc, if_pos hc]
      exact markFirstHit_congr v bs cs h
    · rw [if_neg hc, if_neg hc]
      exact h

theorem markPhase_congr (h1 h2 : Heap) (ra rb : List Nat)
    (hspan : h1.blocks.map (fun b => (b.addr, b.size)) =
      h2.blocks.map (fun b => (b.addr, b.size)))
    (hmem : h1.mem = h2.mem) (hend : h1.heapEnd = h2.heapEnd) :
    (markPhase h1 ra rb).map markShape = (markPhase h2 ra rb).map markShape := by
  match hb1 : h1.blocks, hb2 : h2.blocks with
  | [], [] =>
    unfold markPhase
    rw [hb1, hb2]
  | [], c0 :: u => rw [hb1, hb2] at hspan; simp at hspan
  | b0 :: t, [] => rw [hb1, hb2] at hspan; simp at hspan
  | b0 :: t, c0 :: u =>
    have hreset : (h1.blocks.map (fun b => { b with marked := false })).map markShape
        = (h2.blocks.map (fun b => { b with marked := false })).map markShape := by
      simp only [List.map_map]
      have e1 : ∀ (bs : List Block),
          bs.map (markShape ∘ (fun b => { b with marked := false })) =
          bs.map ((fun x : Nat × Nat => (x.1, x.2, false)) ∘ (fun b => (b.addr, b.size))) :=
        fun bs => List.map_congr_left (fun b _ => rfl)
      rw [e1, e1, ← List.map_map, ← List.map_map, hspan]
    have ha0 : b0.addr = c0.addr := by
      rw [hb1, hb2] at hspan
      simp only [List.map_cons, List.cons.injEq, Prod.mk.injEq] at hspan
      exact hspan.1.1
    rw [hb1, hb2] at hreset
    unfold markPhase
    rw [hb1, hb2]
    simp only
    rw [hmem, hend, ha0]
    exact scan_heap_congr h2.mem _ _
      (scan_region_congr (c0.addr + META_SIZE) h2.heapEnd rb _ _
        (scan_region_congr (c0.addr + META_SIZE) h2.heapEnd ra _ _ hreset))

theorem sweepBlock_free_eq (b : Block) :
    (sweepBlock b).free = (b.free || !b.marked) := by
  unfold sweepBlock
  split
  case isTrue hc => rw [hc.1, hc.2]; rfl
  case isFalse hc =>
    cases hmk : b.marked with
    | true => simp
    | false =>
      cases hfr : b.free with
      | true => simp
      | false => exact absurd ⟨hmk, hfr⟩ hc

/-- C9: running `collect` twice in a row, with the same root-region words
both times and no intervening allocation or release (payload memory is
untouched by `collect`), assigns exactly the same free/allocated status to
every block after the second call as after the first. -/
theorem gc_idempotent (h : Heap) (ra rb : List Nat) :
    (gc (gc h ra rb) ra rb).blocks.map (fun b => b.free) =
      (gc h ra rb).blocks.map (fun b => b.free) := by
  match hbs : h.blocks with
  | [] =>
    rw [gc_empty h ra rb hbs, gc_empty h ra rb hbs]
  | b0 :: t =>
    have hne : h.blocks ≠ [] := by rw [hbs]; exact List.cons_ne_nil b0 t
    have hlen : (markPhase h ra rb).length = h.blocks.length := markPhase_length h ra rb
    have hMne : markPhase h ra rb ≠ [] := by
      intro hc
      rw [hc, hbs] at hlen
      simp at hlen
    have hg1ne : (gc h ra rb).blocks ≠ [] := by
      rw [gc_blocks_sweep h ra rb hne]
      intro hc
      exact hMne (List.map_eq_nil_iff.mp hc)
    have hMcongr : (markPhase (gc h ra rb) ra rb).map markShape =
        (markPhase h ra rb).map markShape :=
      markPhase_congr (gc h ra rb) h ra rb (gc_span h ra rb) (gc_mem h ra rb)
        (gc_heapEnd h ra rb)
    have hMfree1 : (markPhase (gc h ra rb) ra rb).map (fun b => b.free) =
        (gc h ra rb).blocks.map (fun b => b.free) := markPhase_free (gc h ra rb) ra rb
    rw [gc_blocks_sweep h ra rb hne] at hMfree1
    rw [gc_blocks_sweep (gc h ra rb) ra rb hg1ne, gc_blocks_sweep h ra rb hne]
    apply List.ext_getElem?
    intro i
    simp only [List.getElem?_map, Option.map_map]
    have hi1 : ((markPhase (gc h ra rb) ra rb)[i]?).map markShape =
        ((markPhase h ra rb)[i]?).map markShape := by
      rw [← List.getElem?_map, ← List.getElem?_map, hMcongr]
    have hi2 : ((markPhase (gc h ra rb) ra rb)[i]?).map (fun b => b.free) =
        ((markPhase h ra rb)[i]?).map (fun b => (sweepBlock b).free) := by
      have := congrArg (fun l => l[i]?) hMfree1
      simpa [List.getElem?_map, Option.map_map, Function.comp] using this
    cases hm1 : (markPhase (gc h ra rb) ra rb)[i]? with
    | none =>
      cases hm0 : (markPhase h ra rb)[i]? with
      | none => rfl
      | some m => rw [hm1, hm0] at hi1; simp at hi1
    | some m1 =>
      cases hm0 : (markPhase h ra rb)[i]? with
      | none => rw [hm1, hm0] at hi1; simp at hi1
      | some m =>
        rw [hm1, hm0] at hi1 hi2
        simp only [Option.map_some'] at hi1 hi2 ⊢
        rcases markShape_eq_iff.mp (Option.some.inj hi1) with ⟨_, _, hmk⟩
        have hfr : m1.free = (sweepBlock m).free := Option.some.inj hi2
        refine congrArg some ?_
        show (sweepBlock m1).free = (sweepBlock m).free
        rw [sweepBlock_free_eq m1, hmk, hfr, sweepBlock_free_eq m,
          Bool.or_assoc, Bool.or_self]

theorem findIdx?_found_aux (p : Block → Bool) :
    ∀ (bs : List Block) (s i : Nat), List.findIdx? p bs s = some i →
      s ≤ i ∧ ∃ b, bs[i - s]? = some b ∧ p b = true := by
  intro bs
  induction bs with
  | nil => intro s i h; simp [List.findIdx?] at h
  | cons x xs ih =>
    intro s i h
    rw [List.findIdx?_cons] at h
    by_cases hx : p x = true
    · rw [if_pos hx] at h
      cases h
      exact ⟨le_rfl, x, by simp, hx⟩
    · rw [if_neg hx] at h
      obtain ⟨hle, b, hb, hpb⟩ := ih (s + 1) i h
      refine ⟨by omega, b, ?_, hpb⟩
      have hsub : i - s = (i - (s + 1)) + 1 := by omega
      rw [hsub]
      simpa using hb

theorem findIdx?_found (p : Block → Bool) (bs : List Block) (i : Nat)
    (h : bs.findIdx? p = some i) : ∃ b, bs[i]? = some b ∧ p b = true := by
  obtain ⟨_, b, hb, hpb⟩ := findIdx?_found_aux p bs 0 i h
  exact ⟨b, by simpa using hb, hpb⟩

theorem mem_of_getElem_opt {bs : List Block} {i : Nat} {b : Block}
    (h : bs[i]? = some b) : b ∈ bs := by
  rcases List.getElem?_eq_some.mp h with ⟨hlt, rfl⟩
  exact List.getElem_mem hlt

theorem align8_mod8 (n : Nat) : align8 n % 8 = 0 := by
  unfold align8
  exact Nat.mul_mod_left _ 8

/-- Case analysis of `malloc`: a zero-size request returns NULL leaving
the heap unchanged; on exhaustion the `assert` in `request_space` aborts;
otherwise it extends the Arena with a fresh block at the old break, or
reuses the first fitting free block (splitting it or not according to the
threshold test). -/
theorem malloc_spec (h : Heap) (n : Nat) :
    (malloc h n = some (none, h)) ∨
    (malloc h n = none ∧ ¬ h.heapEnd + align8 n + META_SIZE ≤ h.cap) ∨
    (malloc h n = some (some (h.heapEnd + META_SIZE),
      { h with
          blocks := h.blocks ++
            [{ addr := h.heapEnd, size := align8 n, free := false,
               marked := true, magic := 0x12345678 }]
          heapEnd := h.heapEnd + align8 n + META_SIZE }) ∧
      h.heapEnd + align8 n + META_SIZE ≤ h.cap ∧
      find_free_block h.blocks (align8 n) = none) ∨
    (∃ i b, find_free_block h.blocks (align8 n) = some i ∧ h.blocks[i]? = some b ∧
      malloc h n = some (some (b.addr + META_SIZE),
        { h with
            blocks := h.blocks.take i ++
              { addr := b.addr, size := align8 n, free := false,
                marked := true, magic := 0x77777777 } ::
              { addr := b.addr + META_SIZE + align8 n,
                size := b.size - align8 n - META_SIZE, free := true,
                marked := false, magic := 0x22222222 } ::
              h.blocks.drop (i + 1) }) ∧
      align8 n + META_SIZE + MIN_SIZE ≤ b.size ∧ b.free = true ∧ align8 n ≤ b.size) ∨
    (∃ i b, find_free_block h.blocks (align8 n) = some i ∧ h.blocks[i]? = some b ∧
      malloc h n = some (some (b.addr + META_SIZE),
        { h with
            blocks := h.blocks.take i ++
              { b with free := false, marked := true, magic := 0x77777777 } ::
              h.blocks.drop (i + 1) }) ∧
      ¬ (align8 n + META_SIZE + MIN_SIZE ≤ b.size) ∧ b.free = true ∧
      align8 n ≤ b.size) := by
  by_cases hn : n = 0
  · left
    unfold malloc
    rw [if_pos hn]
  · unfold malloc
    rw [if_neg hn]
    simp only
    match hbs : h.blocks with
    | [] =>
      unfold request_space
      by_cases hcap : h.heapEnd + align8 n + META_SIZE ≤ h.cap
      · right; right; left
        rw [if_pos hcap]
        refine ⟨by simp, hcap, by simp [find_free_block]⟩
      · right; left
        rw [if_neg hcap]
        exact ⟨rfl, hcap⟩
    | b0 :: t =>
      match hf : find_free_block (b0 :: t) (align8 n) with
      | none =>
        unfold request_space
        by_cases hcap : h.heapEnd + align8 n + META_SIZE ≤ h.cap
        · right; right; left
          rw [if_pos hcap]
          exact ⟨rfl, hcap, rfl⟩
        · right; left
          rw [if_neg hcap]
          exact ⟨rfl, hcap⟩
      | some i =>
        obtain ⟨b, hget, hpred⟩ := findIdx?_found _ _ _ hf
        have hpred' : b.free = true ∧ align8 n ≤ b.size := by
          simpa using hpred
        simp only [hget]
        by_cases hc : align8 n + META_SIZE + MIN_SIZE ≤ b.size
        · right; right; right; left
          refine ⟨i, b, rfl, hget, ?_, hc, hpred'.1, hpred'.2⟩
          rw [if_pos hc]
        · right; right; right; right
          refine ⟨i, b, rfl, hget, ?_, hc, hpred'.1, hpred'.2⟩
          rw [if_neg hc]

theorem merge_free_blocks_aligned :
    ∀ bs, AlignedBlocks bs → AlignedBlocks (merge_free_blocks bs) := by
  have main : ∀ (rest : List Block) (b : Block), AlignedBlocks (b :: rest) →
      AlignedBlocks (merge_free_blocks (b :: rest)) := by
    intro rest
    induction rest with
    | nil =>
      intro b hA
      simpa [merge_free_blocks] using hA
    | cons c rest' ih =>
      intro b hA
      simp only [merge_free_blocks]
      by_cases hc : b.free = true ∧ c.free = true ∧ b.addr + META_SIZE + b.size = c.addr
      · rw [if_pos hc]
        refine ih _ ?_
        intro x hx
        rcases List.mem_cons.mp hx with hx | hx
        · subst hx
          have hb := hA b (by simp)
          have hcc := hA c (by simp)
          have hMS : META_SIZE = 32 := rfl
          refine ⟨?_, hb.2⟩
          simp only
          omega
        · exact hA x (by simp [hx])
      · rw [if_neg hc]
        intro x hx
        rcases List.mem_cons.mp hx with hx | hx
        · subst hx
          exact hA x (by simp)
        · exact ih c (fun y hy => hA y (List.mem_cons_of_mem _ hy)) x hx
  intro bs hA
  match bs with
  | [] => simpa [merge_free_blocks] using hA
  | b :: rest => exact main rest b hA

theorem malloc_aligned (h : Heap) (n : Nat) (hA : AlignedHeap h) :
    ∀ (r : Option Nat) (h₁ : Heap), malloc h n = some (r, h₁) →
      AlignedHeap h₁ ∧ ∀ p, r = some p → p % 8 = 0 := by
  intro r h₁ hm
  obtain ⟨hAb, hAe⟩ := hA
  have hal := align8_mod8 n
  have hMS : META_SIZE = 32 := rfl
  rcases malloc_spec h n with hcase | ⟨hcase, hcap⟩ | ⟨hcase, hcap, hnf⟩ |
    ⟨i, b, hf, hget, hcase, hc, hbfree, hble⟩ |
    ⟨i, b, hf, hget, hcase, hc, hbfree, hble⟩
  · rw [hcase] at hm
    obtain ⟨hr, hh⟩ := Prod.mk.inj (Option.some.inj hm)
    rw [← hr, ← hh]
    exact ⟨⟨hAb, hAe⟩, fun p hp => by simp at hp⟩
  · rw [hcase] at hm
    exact Option.noConfusion hm
  · rw [hcase] at hm
    obtain ⟨hr, hh⟩ := Prod.mk.inj (Option.some.inj hm)
    rw [← hr, ← hh]
    constructor
    · constructor
      · intro x hx
        rcases List.mem_append.mp hx with hx | hx
        · exact hAb x hx
        · simp only [List.mem_singleton] at hx
          subst hx
          exact ⟨hal, hAe⟩
      · simp only
        omega
    · intro p hp
      simp only [Option.some.injEq] at hp
      omega
  · have hbA := hAb b (mem_of_getElem_opt hget)
    rw [hcase] at hm
    obtain ⟨hr, hh⟩ := Prod.mk.inj (Option.some.inj hm)
    rw [← hr, ← hh]
    constructor
    · constructor
      · intro x hx
        rcases List.mem_append.mp hx with hx | hx
        · exact hAb x (List.take_subset i h.blocks hx)
        · rcases List.mem_cons.mp hx with hx | hx
          · subst hx
            exact ⟨hal, hbA.2⟩
          · rcases List.mem_cons.mp hx with hx | hx
            · subst hx
              refine ⟨?_, ?_⟩ <;> simp only <;> omega
            · exact hAb x (List.drop_subset (i + 1) h.blocks hx)
      · exact hAe
    · intro p hp
      simp only [Option.some.injEq] at hp
      omega
  · have hbA := hAb b (mem_of_getElem_opt hget)
    rw [hcase] at hm
    obtain ⟨hr, hh⟩ := Prod.mk.inj (Option.some.inj hm)
    rw [← hr, ← hh]
    constructor
    · constructor
      · intro x hx
        rcases List.mem_append.mp hx with hx | hx
        · exact hAb x (List.take_subset i h.blocks hx)
        · rcases List.mem_cons.mp hx with hx | hx
          · subst hx
            exact ⟨hbA.1, hbA.2⟩
          · exact hAb x (List.drop_subset (i + 1) h.blocks hx)
      · exact hAe
    · intro p hp
      simp only [Option.some.injEq] at hp
      omega

theorem free_aligned (h : Heap) (ptr : Nat) (h' : Heap) (hA : AlignedHeap h)
    (hf : free h ptr = some h') : AlignedHeap h' := by
  unfold free at hf
  by_cases hp : ptr = 0
  · rw [if_pos hp] at hf
    rw [← Option.some.inj hf]
    exact hA
  · rw [if_neg hp] at hf
    match hfi : h.blocks.findIdx? (fun b => decide (b.addr + META_SIZE = ptr)) with
    | none => rw [hfi] at hf; exact Option.noConfusion hf
    | some i =>
      rw [hfi] at hf
      match hgi : h.blocks[i]? with
      | none =>
        simp only [hgi] at hf
        exact Option.noConfusion hf
      | some b =>
        simp only [hgi] at hf
        by_cases hok : b.free = false ∧ (b.magic = 0x77777777 ∨ b.magic = 0x12345678)
        · rw [if_pos hok] at hf
          rw [← Option.some.inj hf]
          refine ⟨?_, hA.2⟩
          apply merge_free_blocks_aligned
          intro x hx
          rcases List.mem_or_eq_of_mem_set hx with hx | hx
          · exact hA.1 x hx
          · subst hx
            exact hA.1 b (mem_of_getElem_opt hgi)
        · rw [if_neg hok] at hf
          exact Option.noConfusion hf

theorem aligned_of_span_eq {bs cs : List Block}
    (hmap : bs.map (fun b => (b.addr, b.size)) = cs.map (fun b => (b.addr, b.size)))
    (hA : AlignedBlocks cs) : AlignedBlocks bs := by
  induction bs generalizing cs with
  | nil => intro x hx; simp at hx
  | cons b t ih =>
    cases cs with
    | nil => simp at hmap
    | cons c u =>
      simp only [List.map_cons, List.cons.injEq, Prod.mk.injEq] at hmap
      obtain ⟨⟨ha, hs⟩, h2⟩ := hmap
      intro x hx
      rcases List.mem_cons.mp hx with hx | hx
      · subst hx
        have := hA c (by simp)
        rw [hs, ha]
        exact ⟨this.1, this.2⟩
      · exact ih h2 (fun y hy => hA y (List.mem_cons_of_mem _ hy)) x hx

theorem gc_aligned (h : Heap) (ra rb : List Nat) (hA : AlignedHeap h) :
    AlignedHeap (gc h ra rb) := by
  refine ⟨aligned_of_span_eq (gc_span h ra rb) hA.1, ?_⟩
  rw [gc_heapEnd h ra rb]
  exact hA.2

theorem realloc_aligned (h : Heap) (ptr n : Nat) (r : Option Nat) (h' : Heap)
    (hA : AlignedHeap h) (hr : realloc h ptr n = some (r, h')) :
    AlignedHeap h' ∧ ∀ p, r = some p → p % 8 = 0 := by
  have hMS : META_SIZE = 32 := rfl
  unfold realloc at hr
  by_cases hp : ptr = 0
  · rw [if_pos hp] at hr
    exact malloc_aligned h n hA r h' hr
  · rw [if_neg hp] at hr
    by_cases hn : n = 0
    · rw [if_pos hn] at hr
      cases hfr : free h ptr with
      | none => rw [hfr] at hr; simp at hr
      | some h₃ =>
        rw [hfr] at hr
        simp only [Option.map_some', Option.some.injEq, Prod.mk.injEq] at hr
        obtain ⟨hr1, hr2⟩ := hr
        rw [← hr2]
        exact ⟨free_aligned h ptr h₃ hA hfr, fun p hp' => by rw [← hr1] at hp'; simp at hp'⟩
    · rw [if_neg hn] at hr
      match hfi : h.blocks.findIdx? (fun b => decide (b.addr + META_SIZE = ptr)) with
      | none => rw [hfi] at hr; exact Option.noConfusion hr
      | some i =>
        rw [hfi] at hr
        match hgi : h.blocks[i]? with
        | none =>
          simp only [hgi] at hr
          exact Option.noConfusion hr
        | some b =>
          simp only [hgi] at hr
          by_cases hsz : n ≤ b.size
          · rw [if_pos hsz] at hr
            have heq := Option.some.inj hr
            obtain ⟨hr1, hr2⟩ := Prod.mk.inj heq
            obtain ⟨b', hgi', hpb'⟩ := findIdx?_found _ _ _ hfi
            rw [hgi] at hgi'
            have hbb : b' = b := (Option.some.inj hgi').symm
            subst hbb
            have hpb : b'.addr + META_SIZE = ptr := by simpa using hpb'
            rw [← hr2]
            refine ⟨hA, fun p hp' => ?_⟩
            rw [← hr1] at hp'
            have hpe := Option.some.inj hp'
            have := (hA.1 b' (mem_of_getElem_opt hgi)).2
            omega
          · rw [if_neg hsz] at hr
            match hm : malloc h n with
            | none =>
              rw [hm] at hr
              exact Option.noConfusion hr
            | some (none, h₁) =>
              rw [hm] at hr
              simp only [Option.some.injEq, Prod.mk.injEq] at hr
              obtain ⟨hr1, hr2⟩ := hr
              have := (malloc_aligned h n hA none h₁ hm).1
              rw [← hr2]
              exact ⟨this, fun p hp' => by rw [← hr1] at hp'; simp at hp'⟩
            | some (some p, h₁) =>
              rw [hm] at hr
              match hfj : h₁.blocks.findIdx? (fun c => decide (c.addr + META_SIZE = ptr)) with
              | none => simp only [hfj] at hr; exact Option.noConfusion hr
              | some j =>
                simp only [hfj] at hr
                match hgj : h₁.blocks[j]? with
                | none =>
                  simp only [hgj] at hr
                  exact Option.noConfusion hr
                | some b₁ =>
                  simp only [hgj] at hr
                  cases hfr : free { h₁ with mem := memcpy p ptr b₁.size h₁.mem } ptr with
                  | none => rw [hfr] at hr; simp at hr
                  | some h₃ =>
                    rw [hfr] at hr
                    simp only [Option.map_some', Option.some.injEq, Prod.mk.injEq] at hr
                    obtain ⟨hr1, hr2⟩ := hr
                    have hA1 : AlignedHeap h₁ := (malloc_aligned h n hA (some p) h₁ hm).1
                    have hA2 : AlignedHeap { h₁ with mem := memcpy p ptr b₁.size h₁.mem } :=
                      ⟨hA1.1, hA1.2⟩
                    refine ⟨by rw [← hr2]; exact free_aligned _ ptr h₃ hA2 hfr, ?_⟩
                    intro q hq
                    rw [← hr1] at hq
                    have hqe := Option.some.inj hq
                    have := (malloc_aligned h n hA (some p) h₁ hm).2 p rfl
                    omega

theorem runOps_aligned :
    ∀ (ops : List Op) (h h' : Heap), AlignedHeap h → runOps h ops = some h' →
      AlignedHeap h' := by
  intro ops
  induction ops with
  | nil =>
    intro h h' hA hrun
    rw [← Option.some.inj hrun]
    exact hA
  | cons op rest ih =>
    intro h h' hA hrun
    unfold runOps at hrun
    cases hop : runOp h op with
    | none => rw [hop] at hrun; simp at hrun
    | some h₁ =>
      rw [hop] at hrun
      simp only [Option.some_bind] at hrun
      refine ih h₁ h' ?_ hrun
      match op with
      | Op.alloc n =>
        simp only [runOp] at hop
        cases hm : malloc h n with
        | none => rw [hm] at hop; simp at hop
        | some r =>
          rw [hm] at hop
          simp only [Option.map_some', Option.some.injEq] at hop
          rw [← hop]
          exact (malloc_aligned h n hA r.1 r.2 (by rw [hm])).1
      | Op.release p =>
        exact free_aligned h p h₁ hA hop
      | Op.reallocate p n =>
        simp only [runOp] at hop
        cases hre : realloc h p n with
        | none => rw [hre] at hop; simp at hop
        | some r =>
          rw [hre] at hop
          simp only [Option.map_some', Option.some.injEq] at hop
          have := realloc_aligned h p n r.1 r.2 hA (by rw [hre])
          rw [hop] at this
          exact this.1
      | Op.collect ra rb =>
        unfold runOp at hop
        rw [← Option.some.inj hop]
        exact gc_aligned h ra rb hA

/-- C8: starting from an empty Arena with an aligned break, after every
sequence of allocate / release / reallocate / collect calls every block's
size and header address is a multiple of the pointer width (8 bytes), and
every payload pointer returned by `malloc` or `realloc` from an aligned
heap is 8-byte aligned — for every requested size from 1 upward; splitting
and coalescing preserve the invariant because `META_SIZE = 32` is itself a
multiple of 8. -/
theorem alignment_invariant :
    (∀ (e0 c0 : Nat) (m : Nat → Nat) (ops : List Op) (h' : Heap),
      e0 % 8 = 0 →
      runOps { blocks := [], heapEnd := e0, cap := c0, mem := m } ops = some h' →
      ∀ b ∈ h'.blocks, b.size % 8 = 0 ∧ b.addr % 8 = 0) ∧
    (∀ (h : Heap) (n p : Nat) (h₁ : Heap), AlignedHeap h →
      malloc h n = some (some p, h₁) → p % 8 = 0) ∧
    (∀ (h : Heap) (ptr n p : Nat) (h' : Heap), AlignedHeap h →
      realloc h ptr n = some (some p, h') → p % 8 = 0) := by
  refine ⟨?_, ?_, ?_⟩
  · intro e0 c0 m ops h' he hrun
    have hA0 : AlignedHeap { blocks := [], heapEnd := e0, cap := c0, mem := m } :=
      ⟨fun b hb => by simp at hb, he⟩
    exact (runOps_aligned ops _ h' hA0 hrun).1
  · intro h n p h₁ hA hp
    exact (malloc_aligned h n hA (some p) h₁ hp).2 p rfl
  · intro h ptr n p h' hA hr
    exact (realloc_aligned h ptr n (some p) h' hA hr).2 p rfl

/-- Witness for C8: one allocation of 5 bytes from an empty aligned heap
yields a block of aligned size 8 at aligned address 0. -/
theorem alignment_invariant_witness : (8 : Nat) % 8 = 0 ∧ (0 : Nat) % 8 = 0 :=
  alignment_invariant.1 0 1000 (fun _ => 0) [Op.alloc 5]
    { blocks := [{ addr := 0, size := 8, free := false, marked := true,
                   magic := 0x12345678 }]
      heapEnd := 40
      cap := 1000
      mem := fun _ => 0 }
    (by decide) (by rfl)
    { addr := 0, size := 8, free := false, marked := true, magic := 0x12345678 }
    (by simp)

theorem separated_addr_unique {h : Heap} (hsep : Separated h) {k l : Nat}
    {c d : Block} (hk : h.blocks[k]? = some c) (hl : h.blocks[l]? = some d)
    (haddr : c.addr = d.addr) : k = l := by
  have hMS : META_SIZE = 32 := rfl
  obtain ⟨hklt, hkeq⟩ := List.getElem?_eq_some.mp hk
  obtain ⟨hllt, hleq⟩ := List.getElem?_eq_some.mp hl
  by_contra hne
  rcases Nat.lt_or_ge k l with hlt | hge
  · have := List.pairwise_iff_getElem.mp hsep.1 k l hklt hllt hlt
    rw [hkeq, hleq] at this
    omega
  · have hlt : l < k := by omega
    have := List.pairwise_iff_getElem.mp hsep.1 l k hllt hklt hlt
    rw [hkeq, hleq] at this
    omega

theorem findIdx?_of_unique (bs : List Block) (q : Block → Bool) (j : Nat)
    (b : Block) (hj : bs[j]? = some b) (hqb : q b = true)
    (huniq : ∀ k c, bs[k]? = some c → q c = true → k = j) :
    bs.findIdx? q = some j := by
  cases hf : bs.findIdx? q with
  | none =>
    have := List.findIdx?_eq_none_iff.mp hf b (mem_of_getElem_opt hj)
    rw [hqb] at this
    exact Bool.noConfusion this
  | some k =>
    obtain ⟨c, hc, hqc⟩ := findIdx?_found q bs k hf
    rw [huniq k c hc hqc]

theorem splice2_getElem (bs : List Block) (i₀ : Nat) (x y : Block)
    (hi₀ : i₀ < bs.length) (k : Nat) :
    (bs.take i₀ ++ x :: y :: bs.drop (i₀ + 1))[k]? =
      if k < i₀ then bs[k]?
      else if k = i₀ then some x
      else if k = i₀ + 1 then some y
      else bs[k - 1]? := by
  have hlen : (bs.take i₀).length = i₀ := by
    rw [List.length_take]
    omega
  rw [List.getElem?_append, hlen]
  by_cases h1 : k < i₀
  · rw [if_pos h1, if_pos h1, List.getElem?_take, if_pos h1]
  · rw [if_neg h1, if_neg h1]
    by_cases h2 : k = i₀
    · rw [if_pos h2, h2]
      simp
    · rw [if_neg h2]
      have hk1 : 1 ≤ k - i₀ := by omega
      by_cases h3 : k = i₀ + 1
      · rw [if_pos h3, h3]
        simp
      · rw [if_neg h3]
        have hsub : k - i₀ = (k - i₀ - 2) + 2 := by omega
        rw [hsub]
        simp only [List.getElem?_cons_succ]
        rw [List.getElem?_drop]
        congr 1
        omega

theorem splice1_getElem (bs : List Block) (i₀ : Nat) (x : Block)
    (hi₀ : i₀ < bs.length) (k : Nat) :
    (bs.take i₀ ++ x :: bs.drop (i₀ + 1))[k]? =
      if k = i₀ then some x
      else if k < i₀ then bs[k]?
      else bs[k]? := by
  have hlen : (bs.take i₀).length = i₀ := by
    rw [List.length_take]
    omega
  rw [List.getElem?_append, hlen]
  by_cases h1 : k < i₀
  · rw [if_pos h1, if_neg (by omega : ¬ k = i₀), if_pos h1, List.getElem?_take,
      if_pos h1]
  · rw [if_neg h1]
    by_cases h2 : k = i₀
    · rw [if_pos h2, h2]
      simp
    · rw [if_neg h2, if_neg h1]
      have hsub : k - i₀ = (k - i₀ - 1) + 1 := by omega
      rw [hsub]
      simp only [List.getElem?_cons_succ]
      rw [List.getElem?_drop]
      congr 1
      omega

theorem merge_free_blocks_mem :
    ∀ (bs : List Block) (c : Block), c ∈ merge_free_blocks bs →
      c ∈ bs ∨ c.free = true := by
  have main : ∀ (rest : List Block) (b c : Block),
      c ∈ merge_free_blocks (b :: rest) → c ∈ b :: rest ∨ c.free = true := by
    intro rest
    induction rest with
    | nil =>
      intro b c hc
      simp only [merge_free_blocks] at hc
      exact Or.inl hc
    | cons d rest' ih =>
      intro b c hc
      simp only [merge_free_blocks] at hc
      by_cases hcond : b.free = true ∧ d.free = true ∧
          b.addr + META_SIZE + b.size = d.addr
      · rw [if_pos hcond] at hc
        rcases ih _ c hc with hin | hfree
        · rcases List.mem_cons.mp hin with hin | hin
          · subst hin
            exact Or.inr hcond.1
          · exact Or.inl (by simp [hin])
        · exact Or.inr hfree
      · rw [if_neg hcond] at hc
        rcases List.mem_cons.mp hc with hc | hc
        · exact Or.inl (by simp [hc])
        · rcases ih d c hc with hin | hfree
          · exact Or.inl (by simp [List.mem_cons.mp hin])
          · exact Or.inr hfree
  intro bs c hc
  match bs with
  | [] => simp [merge_free_blocks] at hc
  | b :: rest => exact main rest b c hc

/-- `malloc` never moves or modifies an allocated block: on success the
block that the pointer `ptr` designates is still present, still the unique
block whose payload starts at `ptr`, and payload memory is untouched. -/
theorem malloc_preserves_lookup (h : Heap) (n ptr i : Nat) (b : Block)
    (hsep : Separated h)
    (hfind : h.blocks.findIdx? (fun c => decide (c.addr + META_SIZE = ptr)) = some i)
    (hget : h.blocks[i]? = some b)
    (hfree : b.free = false)
    (p : Nat) (h₁ : Heap) (hp : malloc h n = some (some p, h₁)) :
    ∃ j, h₁.blocks.findIdx?
        (fun c => decide (c.addr + META_SIZE = ptr)) = some j ∧
      h₁.blocks[j]? = some b ∧
      (∀ k c, h₁.blocks[k]? = some c → c.addr + META_SIZE = ptr → k = j) ∧
      h₁.mem = h.mem := by
  have hMS : META_SIZE = 32 := rfl
  have hbp : b.addr + META_SIZE = ptr := by
    obtain ⟨b', hb', hpb'⟩ := findIdx?_found _ _ _ hfind
    rw [hget] at hb'
    have := Option.some.inj hb'
    subst this
    exact of_decide_eq_true hpb'
  have huniq0 : ∀ k c, h.blocks[k]? = some c → c.addr + META_SIZE = ptr → k = i := by
    intro k c hk hc
    exact separated_addr_unique hsep hk hget (by omega)
  have hilen : i < h.blocks.length := (List.getElem?_eq_some.mp hget).1
  obtain ⟨hilen', hieq⟩ := List.getElem?_eq_some.mp hget
  rcases malloc_spec h n with hcase | ⟨hcase, hcap⟩ | ⟨hcase, hcap, hnf⟩ |
    ⟨i₀, bf, hf, hget₀, hcase, hc, hbfree, hble⟩ |
    ⟨i₀, bf, hf, hget₀, hcase, hc, hbfree, hble⟩
  · rw [hcase] at hp
    simp at hp
  · rw [hcase] at hp
    exact Option.noConfusion hp
  · -- Arena extended with a fresh block at the break
    rw [hcase] at hp
    obtain ⟨hr, hh⟩ := Prod.mk.inj (Option.some.inj hp)
    have hb2 : h₁.blocks = h.blocks ++
        [{ addr := h.heapEnd, size := align8 n, free := false, marked := true,
           magic := 0x12345678 }] := by rw [← hh]
    have hm2 : h₁.mem = h.mem := by rw [← hh]
    have hget' : h₁.blocks[i]? = some b := by
      rw [hb2, List.getElem?_append, if_pos hilen]
      exact hget
    have huniq' : ∀ k c, h₁.blocks[k]? = some c →
        c.addr + META_SIZE = ptr → k = i := by
      intro k c hk hc
      rw [hb2, List.getElem?_append] at hk
      by_cases hkl : k < h.blocks.length
      · rw [if_pos hkl] at hk
        exact huniq0 k c hk hc
      · rw [if_neg hkl] at hk
        match hsub : k - h.blocks.length with
        | 0 =>
          rw [hsub] at hk
          simp only [List.getElem?_cons_zero] at hk
          have hcf := Option.some.inj hk
          have hend := hsep.2 b (mem_of_getElem_opt hget)
          rw [← hcf] at hc
          simp only at hc
          omega
        | m + 1 =>
          rw [hsub] at hk
          simp at hk
    exact ⟨i, findIdx?_of_unique _ _ i b hget' (by simp [hbp])
      (fun k c hk hc => huniq' k c hk (of_decide_eq_true hc)), hget', huniq', hm2⟩
  · -- reuse with split at index i₀
    have hi₀len : i₀ < h.blocks.length := (List.getElem?_eq_some.mp hget₀).1
    obtain ⟨hi₀len', h₀eq⟩ := List.getElem?_eq_some.mp hget₀
    have hii₀ : i ≠ i₀ := by
      intro he
      subst he
      rw [hget] at hget₀
      have := Option.some.inj hget₀
      rw [this] at hfree
      rw [hfree] at hbfree
      exact Bool.noConfusion hbfree
    rw [hcase] at hp
    obtain ⟨hr, hh⟩ := Prod.mk.inj (Option.some.inj hp)
    have hb2 : h₁.blocks = h.blocks.take i₀ ++
        { addr := bf.addr, size := align8 n, free := false, marked := true,
          magic := 0x77777777 } ::
        { addr := bf.addr + META_SIZE + align8 n,
          size := bf.size - align8 n - META_SIZE, free := true,
          marked := false, magic := 0x22222222 } ::
        h.blocks.drop (i₀ + 1) := by rw [← hh]
    have hm2 : h₁.mem = h.mem := by rw [← hh]
    have haddr_ne : bf.addr ≠ b.addr := by
      intro he
      exact hii₀ (separated_addr_unique hsep hget hget₀ he.symm)
    by_cases hlt : i < i₀
    · have hpair := List.pairwise_iff_getElem.mp hsep.1 i i₀ hilen hi₀len hlt
      rw [hieq, h₀eq] at hpair
      have hget' : h₁.blocks[i]? = some b := by
        rw [hb2, splice2_getElem h.blocks i₀ _ _ hi₀len i, if_pos hlt]
        exact hget
      have huniq' : ∀ k c, h₁.blocks[k]? = some c →
          c.addr + META_SIZE = ptr → k = i := by
        intro k c hk hc
        rw [hb2, splice2_getElem h.blocks i₀ _ _ hi₀len k] at hk
        by_cases hk1 : k < i₀
        · rw [if_pos hk1] at hk
          exact huniq0 k c hk hc
        · rw [if_neg hk1] at hk
          by_cases hk2 : k = i₀
          · rw [if_pos hk2] at hk
            have := Option.some.inj hk
            rw [← this] at hc
            simp only at hc
            exact absurd (by omega : bf.addr = b.addr) haddr_ne
          · rw [if_neg hk2] at hk
            by_cases hk3 : k = i₀ + 1
            · rw [if_pos hk3] at hk
              have := Option.some.inj hk
              rw [← this] at hc
              simp only at hc
              omega
            · rw [if_neg hk3] at hk
              have := huniq0 (k - 1) c hk hc
              omega
      exact ⟨i, findIdx?_of_unique _ _ i b hget' (by simp [hbp])
        (fun k c hk hc => huniq' k c hk (of_decide_eq_true hc)), hget', huniq', hm2⟩
    · have hgt : i₀ < i := by omega
      have hpair := List.pairwise_iff_getElem.mp hsep.1 i₀ i hi₀len hilen hgt
      rw [hieq, h₀eq] at hpair
      have hget' : h₁.blocks[i + 1]? = some b := by
        rw [hb2, splice2_getElem h.blocks i₀ _ _ hi₀len (i + 1),
          if_neg (by omega : ¬ i + 1 < i₀), if_neg (by omega : ¬ i + 1 = i₀),
          if_neg (by omega : ¬ i + 1 = i₀ + 1)]
        simpa using hget
      have huniq' : ∀ k c, h₁.blocks[k]? = some c →
          c.addr + META_SIZE = ptr → k = i + 1 := by
        intro k c hk hc
        rw [hb2, splice2_getElem h.blocks i₀ _ _ hi₀len k] at hk
        by_cases hk1 : k < i₀
        · rw [if_pos hk1] at hk
          have := huniq0 k c hk hc
          omega
        · rw [if_neg hk1] at hk
          by_cases hk2 : k = i₀
          · rw [if_pos hk2] at hk
            have := Option.some.inj hk
            rw [← this] at hc
            simp only at hc
            exact absurd (by omega : bf.addr = b.addr) haddr_ne
          · rw [if_neg hk2] at hk
            by_cases hk3 : k = i₀ + 1
            · rw [if_pos hk3] at hk
              have := Option.some.inj hk
              rw [← this] at hc
              simp only at hc
              omega
            · rw [if_neg hk3] at hk
              have := huniq0 (k - 1) c hk hc
              omega
      exact ⟨i + 1, findIdx?_of_unique _ _ (i + 1) b hget' (by simp [hbp])
        (fun k c hk hc => huniq' k c hk (of_decide_eq_true hc)), hget', huniq', hm2⟩
  · -- reuse without split at index i₀
    have hi₀len : i₀ < h.blocks.length := (List.getElem?_eq_some.mp hget₀).1
    have hii₀ : i ≠ i₀ := by
      intro he
      subst he
      rw [hget] at hget₀
      have := Option.some.inj hget₀
      rw [this] at hfree
      rw [hfree] at hbfree
      exact Bool.noConfusion hbfree
    rw [hcase] at hp
    obtain ⟨hr, hh⟩ := Prod.mk.inj (Option.some.inj hp)
    have hb2 : h₁.blocks = h.blocks.take i₀ ++
        { bf with free := false, marked := true, magic := 0x77777777 } ::
        h.blocks.drop (i₀ + 1) := by rw [← hh]
    have hm2 : h₁.mem = h.mem := by rw [← hh]
    have haddr_ne : bf.addr ≠ b.addr := by
      intro he
      exact hii₀ (separated_addr_unique hsep hget hget₀ he.symm)
    have hget' : h₁.blocks[i]? = some b := by
      rw [hb2, splice1_getElem h.blocks i₀ _ hi₀len i, if_neg hii₀]
      by_cases hlt : i < i₀
      · rw [if_pos hlt]; exact hget
      · rw [if_neg hlt]; exact hget
    have huniq' : ∀ k c, h₁.blocks[k]? = some c →
        c.addr + META_SIZE = ptr → k = i := by
      intro k c hk hc
      rw [hb2, splice1_getElem h.blocks i₀ _ hi₀len k] at hk
      by_cases hk2 : k = i₀
      · rw [if_pos hk2] at hk
        have := Option.some.inj hk
        rw [← this] at hc
        simp only at hc
        exact absurd (by omega : bf.addr = b.addr) haddr_ne
      · rw [if_neg hk2] at hk
        by_cases hk1 : k < i₀
        · rw [if_pos hk1] at hk
          exact huniq0 k c hk hc
        · rw [if_neg hk1] at hk
          exact huniq0 k c hk hc
    exact ⟨i, findIdx?_of_unique _ _ i b hget' (by simp [hbp])
      (fun k c hk hc => huniq' k c hk (of_decide_eq_true hc)), hget', huniq', hm2⟩

/-- Success path of `realloc` growth (src/main.c lines 261-268): when the
internal `malloc` returns a new pointer, the old block's `size` bytes (the
lesser of old and new) are copied into the new payload, the old block is
released, and the new pointer is returned. -/
theorem realloc_grow_success (h : Heap) (ptr n i : Nat) (b : Block)
    (p : Nat) (h₁ : Heap)
    (hsep : Separated h)
    (hptr : ptr ≠ 0)
    (hfind : h.blocks.findIdx? (fun c => decide (c.addr + META_SIZE = ptr)) = some i)
    (hget : h.blocks[i]? = some b)
    (hgrow : b.size < n)
    (hfree : b.free = false)
    (hmagic : b.magic = 0x77777777 ∨ b.magic = 0x12345678)
    (hp : malloc h n = some (some p, h₁)) :
    ∃ h₃, realloc h ptr n = some (some p, h₃) ∧
      (∀ off, off < b.size → h₃.mem (p + off) = h.mem (ptr + off)) ∧
      (∀ c ∈ h₃.blocks, c.addr + META_SIZE = ptr → c.free = true) := by
  have hMS : META_SIZE = 32 := rfl
  have hn0 : n ≠ 0 := by omega
  have hnle : ¬ n ≤ b.size := by omega
  obtain ⟨j, hfj, hgj, huniq, hmem⟩ :=
    malloc_preserves_lookup h n ptr i b hsep hfind hget hfree p h₁ hp
  have hjlen : j < h₁.blocks.length := (List.getElem?_eq_some.mp hgj).1
  refine ⟨{ h₁ with
      blocks := merge_free_blocks (h₁.blocks.set j
        { b with free := true, marked := false, magic := 0x55555555 })
      mem := memcpy p ptr b.size h₁.mem }, ?_, ?_, ?_⟩
  · unfold realloc
    rw [if_neg hptr, if_neg hn0, hfind]
    simp only [hget, if_neg hnle, hp]
    simp only [hfj, hgj]
    unfold free
    rw [if_neg hptr]
    simp only [hfj, hgj, if_pos (And.intro hfree hmagic), Option.map_some']
  · intro off hoff
    show memcpy p ptr b.size h₁.mem (p + off) = h.mem (ptr + off)
    unfold memcpy
    rw [if_pos ⟨Nat.le_add_right p off, by omega⟩, hmem]
    congr 1
    omega
  · intro c hc hcp
    simp only at hc
    rcases merge_free_blocks_mem _ c hc with hcs | hcf
    · rcases List.mem_or_eq_of_mem_set hcs with hch | hceq
      · exfalso
        obtain ⟨k, hk⟩ := List.mem_iff_getElem?.mp hch
        have hkj := huniq k c hk hcp
        rw [hkj] at hk
        have hcb : c = b := Option.some.inj (hk.symm.trans hgj)
        subst hcb
        obtain ⟨k', hk'⟩ := List.mem_iff_getElem?.mp hcs
        by_cases hk'j : k' = j
        · rw [hk'j, List.getElem?_set, if_pos rfl, if_pos hjlen] at hk'
          have := congrArg Block.free (Option.some.inj hk')
          simp only at this
          rw [hfree] at this
          exact Bool.noConfusion this
        · rw [List.getElem?_set, if_neg (fun he => hk'j he.symm)] at hk'
          exact hk'j (huniq k' c hk' hcp)
      · rw [hceq]
    · exact hcf

/-- Concrete instance of the growth success path at `hW6`: growing the
single 8-byte block to 16 bytes returns the fresh payload 136, copies the
8 old bytes, and releases the old block. -/
theorem realloc_grow_success_instance :
    ∃ h₃, realloc hW6 96 16 = some (some 136, h₃) ∧
      (∀ off, off < 8 → h₃.mem (136 + off) = hW6.mem (96 + off)) ∧
      (∀ c ∈ h₃.blocks, c.addr + META_SIZE = 96 → c.free = true) :=
  realloc_grow_success hW6 96 16 0
    { addr := 64, size := 8, free := false, marked := true, magic := 0x77777777 }
    136
    { blocks :=
        [{ addr := 64, size := 8, free := false, marked := true, magic := 0x77777777 },
         { addr := 104, size := 16, free := false, marked := true, magic := 0x12345678 }]
      heapEnd := 152
      cap := 1000
      mem := fun a => a % 256 }
    (by constructor
        · simp [hW6]
        · intro b hb
          simp [hW6] at hb
          rw [hb]
          decide)
    (by decide) (by rfl) (by rfl) (by decide) (by rfl) (by decide) (by rfl)

/-- C6: the claim's allocation-failure clause — `reallocate` "returns null
and the old block is left untouched" when the new allocation fails — is
the spec's intent (ResourceExhausted is to be propagated as a null result,
and the `return NULL` on src/main.c lines 143-145 shows the author meant
exactly that), but the code cannot do it: when `sbrk` cannot extend it
returns `(void*)-1`, which never equals the previous break, so the
`assert((void *)block == request)` on src/main.c line 142 aborts the
process first and the NULL-return is dead code.  At the concrete heap
`hW5` — one validly allocated 8-byte block with the break already at the
capacity limit — growing it to 16 bytes makes the internal allocation
fail, and `reallocate` aborts (`none`) instead of returning null. -/
theorem realloc_exhaustion_aborts :
    hW5.blocks.map (fun b => (b.free, b.magic)) = [(false, 0x77777777)] ∧
    malloc hW5 16 = none ∧
    realloc hW5 96 16 = none := by
  exact ⟨rfl, rfl, rfl⟩
